import Mathlib

/-!
Verification development for the elkplot path-optimization engine.

The embedding models the plotting geometry over exact rational coordinates:
a point is a pair of rationals, a path (one pen-down polyline stroke, a
shapely `LineString`) is a list of points, and a path collection (a shapely
`MultiLineString` layer) is a list of paths.  Euclidean distances enter the
algorithms only through comparisons, which are faithfully decided on squared
distances (`sqDist`); real-valued lengths (`rdist`, `path_length`,
`up_length`) are the corresponding square roots.

The spatial r-tree indices (`rtree.index.Index`) are modelled as the list of
still-live entry ids; `nearest` is the argmin of the (squared) distance over
the live entries, with ties broken towards the earliest-inserted id, one
deterministic refinement of the library's arbitrary tie-breaking.  All loops
are embedded as structurally recursive functions on an explicit fuel that is
instantiated with the number of live entries, which every loop strictly
decreases.

Sources embedded here: `elkplot/shape_utils.py` (LineIndex, `_weld`,
`_sort_paths_single`, `_join_paths_single`, `_reloop_paths_single`,
`_delete_short_paths_single`, `optimize`, `up_length`) and
`elkplot/spatial.py` (`reverse_path`, `PathGraph`, `PathIndex`,
`greedy_walk`).  `elkplot/optimization.py` contains an older duplicate of
the same functions (it neither imports `numpy` nor is imported by the
package, and its `_sort_paths_single` calls `len` on a geometry), so
`shape_utils.py` is taken as the authority where the two differ.
-/

/-- A 2-D point with exact rational coordinates. -/
abbrev Pt : Type := ℚ × ℚ

/-- A path: the coordinate list of one shapely `LineString`. -/
abbrev PPath : Type := List Pt

/-- The plotter origin `(0, 0)`. -/
def o0 : Pt := (0, 0)

/-- Squared Euclidean distance; comparisons of distances in the source are
decided on this exact rational value. -/
def sqDist (p q : Pt) : ℚ := (p.1 - q.1) * (p.1 - q.1) + (p.2 - q.2) * (p.2 - q.2)

/-- Euclidean distance (`shapely.distance` between two points). -/
noncomputable def rdist (p q : Pt) : ℝ := Real.sqrt ((sqDist p q : ℚ) : ℝ)

/-- Start coordinate of a path (`line.coords[0]`). -/
def pathStart (p : PPath) : Pt := p.headD o0

/-- End coordinate of a path (`line.coords[-1]`). -/
def pathEnd (p : PPath) : Pt := p.getLastD o0

/-- The consecutive coordinate pairs (the segments) of a path. -/
def seg_pairs (p : PPath) : List (Pt × Pt) := p.zip p.tail

/-- Total length of a path (`shapely.length` of a `LineString`): the sum of
its segment lengths. -/
noncomputable def path_length (p : PPath) : ℝ :=
  ((seg_pairs p).map (fun s => rdist s.1 s.2)).sum

/-- Decides `shapely.length(line) > 0`: a polyline has positive length iff
some segment has distinct endpoints. -/
def pos_length (p : PPath) : Bool :=
  (seg_pairs p).any (fun s => decide (s.1 ≠ s.2))

/-- Pen-up travel distance of a layer, from `shape_utils.up_length`: starting
at the origin, accumulate the gap from the current pen position to each
path's start, then move the pen to that path's end.  (The loop body of the
source, with the pen position as the explicit first argument.) -/
noncomputable def up_length_from (pos : Pt) : List PPath → ℝ
  | [] => 0
  | p :: rest => rdist pos (pathStart p) + up_length_from (pathEnd p) rest

/-- `shape_utils.up_length`: pen-up distance of a layer, starting from the
origin. -/
noncomputable def up_length (paths : List PPath) : ℝ := up_length_from o0 paths

/-- Nearest-entry query of an r-tree point index over the live entries:
argmin of `f`, ties broken towards the earlier entry. -/
def argminQ {α : Type} (f : α → ℚ) : List α → Option α
  | [] => none
  | x :: xs =>
    match argminQ f xs with
    | none => some x
    | some y => if f x ≤ f y then some x else some y

theorem argminQ_eq_none {α : Type} (f : α → ℚ) (l : List α) :
    argminQ f l = none ↔ l = [] := by
  cases l with
  | nil => simp [argminQ]
  | cons x xs =>
    simp only [argminQ]
    cases h : argminQ f xs with
    | none => simp
    | some y => simp only; split <;> simp

theorem argminQ_mem {α : Type} {f : α → ℚ} {l : List α} {x : α}
    (h : argminQ f l = some x) : x ∈ l := by
  induction l with
  | nil => simp [argminQ] at h
  | cons a as ih =>
    simp only [argminQ] at h
    cases h' : argminQ f as with
    | none => rw [h'] at h; simp at h; simp [h]
    | some y =>
      rw [h'] at h
      simp only at h
      split at h
      · simp at h; simp [h]
      · simp at h; subst h; exact List.mem_cons_of_mem _ (ih h')

theorem argminQ_min {α : Type} {f : α → ℚ} {l : List α} {x : α}
    (h : argminQ f l = some x) : ∀ y ∈ l, f x ≤ f y := by
  induction l generalizing x with
  | nil => simp [argminQ] at h
  | cons a as ih =>
    intro y hy
    simp only [argminQ] at h
    cases h' : argminQ f as with
    | none =>
      rw [h'] at h; simp at h; subst h
      have hnil : as = [] := (argminQ_eq_none f as).mp h'
      subst hnil
      rcases List.mem_cons.mp hy with rfl | hy'
      · exact le_refl _
      · simp at hy'
    | some z =>
      rw [h'] at h
      simp only at h
      by_cases hle : f a ≤ f z
      · rw [if_pos hle] at h
        simp at h; subst h
        rcases List.mem_cons.mp hy with rfl | hy'
        · exact le_refl _
        · exact le_trans hle (ih h' y hy')
      · rw [if_neg hle] at h
        simp at h; subst h
        rcases List.mem_cons.mp hy with rfl | hy'
        · exact le_of_lt (lt_of_not_le hle)
        · exact ih h' y hy'

/-- The state of `shape_utils.LineIndex`: the fixed array of indexed lines
(the constructor filters out zero-length ones) and the ids still live in the
two r-tree indices (`pop` always deletes an id from both, so one live set
suffices). -/
structure LineIndex where
  lines : List PPath
  alive : List ℕ

namespace LineIndex

/-- `LineIndex.__init__`: keep the positive-length lines, all ids live. -/
def init (paths : List PPath) : LineIndex :=
  ⟨paths.filter pos_length, List.range (paths.filter pos_length).length⟩

/-- `self.lines[idx]`. -/
def line (li : LineIndex) (i : ℕ) : PPath := li.lines.getD i []

/-- `LineIndex.pop`: delete the id from both indices (the popped line itself
is read off with `line`). -/
def pop (li : LineIndex) (i : ℕ) : LineIndex := ⟨li.lines, li.alive.erase i⟩

/-- `LineIndex.find_nearest`: nearest live start point and nearest live end
point; prefer the start if it is strictly closer, else take the end with the
`reverse` flag set. -/
def find_nearest (li : LineIndex) (p : Pt) : Option (ℕ × Bool) :=
  match argminQ (fun i => sqDist p (pathStart (li.line i))) li.alive with
  | none => none
  | some f =>
    match argminQ (fun i => sqDist p (pathEnd (li.line i))) li.alive with
    | none => none
    | some r =>
      if sqDist p (pathStart (li.line f)) < sqDist p (pathEnd (li.line r))
      then some (f, false) else some (r, true)

/-- Decides `distance(p, q) <= tolerance` on squared distances: true iff the
tolerance is nonnegative and the squared distance is at most its square. -/
def within_tol (d2 : ℚ) (tol : ℚ) : Bool :=
  decide (0 ≤ tol) && decide (d2 ≤ tol * tol)

/-- `LineIndex.find_nearest_within`: the nearest live start point if it is
within tolerance, else the nearest live end point if that is within
tolerance (with the `reverse` flag), else nothing. -/
def find_nearest_within (li : LineIndex) (p : Pt) (tol : ℚ) :
    Option (ℕ × Bool) :=
  match argminQ (fun i => sqDist p (pathStart (li.line i))) li.alive with
  | none => none
  | some f =>
    if within_tol (sqDist p (pathStart (li.line f))) tol then some (f, false)
    else
      match argminQ (fun i => sqDist p (pathEnd (li.line i))) li.alive with
      | none => none
      | some r =>
        if within_tol (sqDist p (pathEnd (li.line r))) tol then some (r, true)
        else none

/-- `LineIndex.next_available_id`: the live id whose start point is nearest
the origin. -/
def next_available_id (li : LineIndex) : Option ℕ :=
  argminQ (fun i => sqDist o0 (pathStart (li.line i))) li.alive

end LineIndex

/-- The loop of `shape_utils._sort_paths_single`: repeatedly take the line
whose nearer endpoint is closest to the pen position, reversing it when that
endpoint is its end, and advance the pen to the emitted line's end.  Fuel is
instantiated with the number of live lines. -/
def sort_loop : ℕ → LineIndex → Pt → List PPath
  | 0, _, _ => []
  | fuel + 1, li, pos =>
    match li.find_nearest pos with
    | none => []
    | some (idx, rev) =>
      let next_line := if rev then (li.line idx).reverse else li.line idx
      next_line :: sort_loop fuel (li.pop idx) (pathEnd next_line)

/-- `shape_utils._sort_paths_single`: drop zero-length paths, return them
as-is if fewer than two remain, else run the greedy nearest-endpoint walk
from the origin. -/
def sort_paths_single (paths : List PPath) : List PPath :=
  let filtered := paths.filter pos_length
  if filtered.length < 2 then filtered
  else sort_loop filtered.length (LineIndex.init filtered) o0

/-- `shape_utils._weld`: concatenate two coordinate lists, dropping the
first list's last point when it exactly coincides with the second's first
point. -/
def weld (a b : PPath) : PPath :=
  if pathEnd a = pathStart b then a.dropLast ++ b else a ++ b

/-- The inner loop of `shape_utils._join_paths_single`: greedily extend the
seed path at its tail by the nearest within-tolerance endpoint; when the
tail has no candidate but the head does, reverse the seed and extend there;
stop when neither end has a candidate.  Fuel is instantiated with the number
of live lines. -/
def join_inner : ℕ → LineIndex → PPath → ℚ → PPath × LineIndex
  | 0, li, path, _ => (path, li)
  | fuel + 1, li, path, tol =>
    match li.find_nearest_within (pathEnd path) tol with
    | some (idx, rev) =>
      let ext := if rev then (li.line idx).reverse else li.line idx
      join_inner fuel (li.pop idx) (weld path ext) tol
    | none =>
      match li.find_nearest_within (pathStart path) tol with
      | none => (path, li)
      | some (idx, rev) =>
        let ext := if rev then (li.line idx).reverse else li.line idx
        join_inner fuel (li.pop idx) (weld path.reverse ext) tol

/-- The trailing loop of `shape_utils._join_paths_single`: emit the leftover
live lines one by one, always popping `next_available_id`. -/
def drain_loop : ℕ → LineIndex → List PPath
  | 0, _ => []
  | fuel + 1, li =>
    match li.next_available_id with
    | none => []
    | some i => li.line i :: drain_loop fuel (li.pop i)

/-- The outer loop of `shape_utils._join_paths_single`: while more than one
line is live, pop the seed nearest the origin, extend it with the inner
loop, and emit it; once at most one line is live, drain the leftovers.
Fuel is instantiated with the number of live lines. -/
def join_outer : ℕ → LineIndex → ℚ → List PPath
  | 0, li, _ => drain_loop li.alive.length li
  | fuel + 1, li, tol =>
    if li.alive.length ≤ 1 then drain_loop li.alive.length li
    else
      match li.next_available_id with
      | none => []
      | some i =>
        let li1 := li.pop i
        let step := join_inner li1.alive.length li1 (li.line i) tol
        step.1 :: join_outer fuel step.2 tol

/-- `shape_utils._join_paths_single`: drop zero-length paths, return them
as-is if fewer than two remain, else weld greedily. -/
def join_paths_single (paths : List PPath) (tol : ℚ) : List PPath :=
  let filtered := paths.filter pos_length
  if filtered.length < 2 then filtered
  else join_outer filtered.length (LineIndex.init filtered) tol

/-- Whether a coordinate list is a closed ring (`coordinates[0] ==
coordinates[-1]`); a valid `LineString` has at least two coordinates. -/
def is_closed (coords : PPath) : Bool :=
  decide (2 ≤ coords.length) && decide (pathStart coords = pathEnd coords)

/-- The per-path loop body of `shape_utils._reloop_paths_single`: for a
closed path, drop the closing point, rotate the remainder to start at the
pseudo-randomly drawn index, and re-close there; open paths pass through.
The random draw `rng.integers(len(coordinates))` is modelled by the oracle
value `r` reduced into range.  NOTE: after this loop the source returns
`shapely.union_all(lines)`, a GEOS geometric union that nodes crossing
linework and dissolves retraced segments; that external computation is NOT
modelled, and it makes the real reloop stage violate the geometry
preservation that this loop body (and the spec's purely cosmetic reloop)
guarantees — see `reloop_path_preserves` and the C6 code-bug filing. -/
def reloop_path (r : ℕ) (coords : PPath) : PPath :=
  if is_closed coords then
    let cs := coords.dropLast
    let rot := cs.rotate (r % cs.length)
    rot ++ [rot.headD o0]
  else coords

/-- `shape_utils._delete_short_paths_single`: keep exactly the paths of
length at least `min_length` (so every path with `length < tolerance` is
dropped). -/
noncomputable def delete_short_paths_single
    (paths : List PPath) (min_length : ℚ) : List PPath :=
  paths.filter fun p =>
    @decide ((min_length : ℝ) ≤ path_length p) (Classical.propDecidable _)

/-- The geometry tree handled by the `optimize` pipeline: a single layer
(`MultiLineString`), a multi-layer drawing (`GeometryCollection`), or any
other geometry, which every stage's trailing `return geometry` branch passes
through unchanged.  (Claims never exercise the `MultiPolygon` boundary
branch, so polygon-valued inputs fall under `other`.) -/
inductive Geom where
  | mls (paths : List PPath)
  | collection (layers : List Geom)
  | other

/-- `shape_utils._sort_paths`: sort each layer. -/
def sort_paths : Geom → Geom
  | .mls ps => .mls (sort_paths_single ps)
  | .collection layers => .collection (layers.attach.map fun l => sort_paths l.1)
  | .other => .other
termination_by g => sizeOf g
decreasing_by
  simp_wf
  have := List.sizeOf_lt_of_mem l.2
  omega

/-- `shape_utils._join_paths`: join within each layer. -/
def join_paths (tol : ℚ) : Geom → Geom
  | .mls ps => .mls (join_paths_single ps tol)
  | .collection layers =>
    .collection (layers.attach.map fun l => join_paths tol l.1)
  | .other => .other
termination_by g => sizeOf g
decreasing_by
  simp_wf
  have := List.sizeOf_lt_of_mem l.2
  omega

/-- `shape_utils._reloop_paths`: reloop each layer; the unseeded global RNG
is modelled by the oracle `choice`, giving each path's random draw by its
position in the layer.  The per-layer `_reloop_paths_single` ends with a
`shapely.union_all(lines)` over the rotated lines, which is not modelled
(see `reloop_path`): the embedded stage is the pre-union linework. -/
def reloop_paths (choice : ℕ → ℕ) : Geom → Geom
  | .mls ps => .mls (ps.mapIdx fun k p => reloop_path (choice k) p)
  | .collection layers =>
    .collection (layers.attach.map fun l => reloop_paths choice l.1)
  | .other => .other
termination_by g => sizeOf g
decreasing_by
  simp_wf
  have := List.sizeOf_lt_of_mem l.2
  omega

/-- `shape_utils._delete_short_paths`: filter each layer. -/
noncomputable def delete_short_paths (min_length : ℚ) : Geom → Geom
  | .mls ps => .mls (delete_short_paths_single ps min_length)
  | .collection layers =>
    .collection (layers.attach.map fun l => delete_short_paths min_length l.1)
  | .other => .other
termination_by g => sizeOf g
decreasing_by
  simp_wf
  have := List.sizeOf_lt_of_mem l.2
  omega

/-- `shape_utils.optimize` (its pure geometry transformation; the optional
progress/metrics printing is display-only): reloop, join, delete-short and
sort, in that fixed order, each gated by its flag. -/
noncomputable def optimize (geometry : Geom) (tolerance : ℚ)
    (sort reloop delete_small join : Bool) (choice : ℕ → ℕ) : Geom :=
  let g1 := if reloop then reloop_paths choice geometry else geometry
  let g2 := if join then join_paths tolerance g1 else g1
  let g3 := if delete_small then delete_short_paths tolerance g2 else g2
  if sort then sort_paths g3 else g3

/-- `spatial.reverse_path`: `substring(path, 1, 0, normalized=True)`, the
path with its coordinate order reversed. -/
def reverse_path (p : PPath) : PPath := p.reverse

/-- `spatial.PathGraph.get_disjoint`: `((i - 1) ^ 1) + 1` with Python's
two's-complement xor on arbitrary-precision integers. -/
def get_disjoint (i : ℤ) : ℤ := Int.xor (i - 1) 1 + 1

/-- `spatial.PathGraph`: the path list and the pen-up origin. -/
structure PathGraph where
  paths : List PPath
  origin : Pt

namespace PathGraph

/-- The `endpoints` list built by `PathGraph.__init__`: the origin pair at
node 0, then for each path its (start, end) and (end, start) pairs. -/
def endpoints (g : PathGraph) : List (Pt × Pt) :=
  (g.origin, g.origin) ::
    g.paths.flatMap fun p => [(pathStart p, pathEnd p), (pathEnd p, pathStart p)]

/-- `PathGraph.num_nodes`. -/
def num_nodes (g : PathGraph) : ℕ := g.endpoints.length

/-- `self.endpoints[i][0]`, a node's start coordinates
(`PathGraph.get_coordinates` with `end=False`). -/
def node_start (g : PathGraph) (i : ℕ) : Pt :=
  (g.endpoints.getD i (g.origin, g.origin)).1

/-- `self.endpoints[i][1]`, a node's end coordinates
(`PathGraph.get_coordinates` with `end=True`). -/
def node_end (g : PathGraph) (i : ℕ) : Pt :=
  (g.endpoints.getD i (g.origin, g.origin)).2

end PathGraph

/-- Python list indexing `l[i]`: negative indices count from the end, out of
range raises (`none`). -/
def py_index {α : Type} (l : List α) (i : ℤ) : Option α :=
  if 0 ≤ i then l.get? i.toNat
  else if (-i).toNat ≤ l.length then l.get? (l.length - (-i).toNat) else none

namespace PathGraph

/-- `PathGraph.get_path`: `index = (i - 1) // 2` (Python floor division),
`reverse = (i - 1) % 2` (Python remainder, alwaysnonnegative), then
`self.paths[index]`, reversed when `reverse` is truthy. -/
def get_path (g : PathGraph) (i : ℤ) : Option PPath :=
  (py_index g.paths ((i - 1).fdiv 2)).map fun p =>
    if (i - 1).emod 2 = 1 then reverse_path p else p

/-- The non-origin node ids `1 .. num_nodes - 1` produced by
`PathGraph.iter_starts_with_index`. -/
def node_ids (g : PathGraph) : List ℤ :=
  List.map (fun k : ℕ => (k : ℤ) + 1) (List.range (g.num_nodes - 1))

/-- `PathGraph.check_valid_solution`: the `Counter` of the lower member of
each solution node's disjoint pair must equal the `Counter` of the lower
members over all non-origin nodes (the difference printed by the source is
empty exactly when the two multisets agree). -/
def check_valid_solution (g : PathGraph) (solution : List ℤ) : Bool :=
  decide
    (((g.node_ids.filter fun i => i < get_disjoint i) : Multiset ℤ) =
      (solution.map fun i => min i (get_disjoint i) : Multiset ℤ))

/-- `PathGraph.get_route_from_solution`: assert validity (an invalid
solution aborts with the printed count discrepancy, modelled as `none`),
then materialize `get_path` of every node in order. -/
def get_route_from_solution (g : PathGraph) (solution : List ℤ) :
    Option (List PPath) :=
  if g.check_valid_solution solution then solution.mapM g.get_path else none

end PathGraph

/-- The loop of `spatial.greedy_walk` over `spatial.PathIndex`: pick the
live node whose start is nearest the pen location, move the location to that
node's end, delete the node and its disjoint pair (`PathIndex.delete_pair`),
and yield it; an empty index stops the walk.  Fuel is instantiated with the
node count. -/
def greedy_walk_loop : ℕ → PathGraph → List ℤ → Pt → List ℤ
  | 0, _, _, _ => []
  | fuel + 1, g, alive, loc =>
    match argminQ (fun i => sqDist loc (g.node_start i.toNat)) alive with
    | none => []
    | some n =>
      n ::
        greedy_walk_loop fuel g ((alive.erase n).erase (get_disjoint n))
          (g.node_end n.toNat)

/-- `spatial.greedy_walk`: walk from the origin over the index of all
non-origin nodes. -/
def greedy_walk (g : PathGraph) : List ℤ :=
  greedy_walk_loop g.num_nodes g g.node_ids (g.node_start 0)

theorem nat_xor_one (n : ℕ) : n ^^^ 1 = if n % 2 = 0 then n + 1 else n - 1 := by
  rcases Nat.even_or_odd n with ⟨k, rfl⟩ | ⟨k, rfl⟩
  · have h := Nat.xor_bit false k true 0
    simp only [Nat.bit_false, Nat.bit_true, Nat.xor_zero,
      show (false != true) = true from rfl, Nat.mul_zero, Nat.zero_add] at h
    have h2 : k + k = 2 * k := by ring
    rw [h2, h, if_pos (by omega)]
  · have h := Nat.xor_bit true k true 0
    simp only [Nat.bit_false, Nat.bit_true, Nat.xor_zero,
      show (true != true) = false from rfl, Nat.mul_zero, Nat.zero_add] at h
    rw [h, if_neg (by omega)]
    omega

theorem int_xor_one (x : ℤ) : Int.xor x 1 = if 2 ∣ x then x + 1 else x - 1 := by
  cases x with
  | ofNat m =>
    show Int.xor (m : ℤ) 1 = if 2 ∣ (m : ℤ) then (m : ℤ) + 1 else (m : ℤ) - 1
    have h : Int.xor (m : ℤ) 1 = ((m ^^^ 1 : ℕ) : ℤ) := rfl
    rw [h, nat_xor_one m]
    by_cases hm : m % 2 = 0
    · rw [if_pos hm, if_pos (by omega)]
      push_cast
      ring
    · rw [if_neg hm, if_neg (by omega)]
      omega
  | negSucc m =>
    have h : Int.xor (Int.negSucc m) 1 = Int.negSucc (m ^^^ 1) := rfl
    rw [h, nat_xor_one m]
    by_cases hm : m % 2 = 0
    · rw [if_pos hm, if_neg (by simp only [Int.negSucc_eq]; omega)]
      simp only [Int.negSucc_eq]
      push_cast
      ring
    · rw [if_neg hm, if_pos (by simp only [Int.negSucc_eq]; omega)]
      simp only [Int.negSucc_eq]
      omega

/-- Closed form of `get_disjoint`: adding one to an odd node id, subtracting
one from an even one (also for the non-positive ids Python would accept). -/
theorem get_disjoint_eq (i : ℤ) :
    get_disjoint i = if 2 ∣ (i - 1) then i + 1 else i - 1 := by
  unfold get_disjoint
  rw [int_xor_one]
  split_ifs <;> ring

/-- C4: `PathGraph.get_disjoint` is an involution on the valid non-origin
node ids `1 .. 2N`, and pairs node `2k+1` with node `2k+2` for each path
`k`. -/
theorem get_disjoint_involution (N : ℕ) (i : ℤ) (h1 : 1 ≤ i)
    (h2 : i ≤ 2 * N) :
    get_disjoint (get_disjoint i) = i ∧
      ∀ k : ℕ, k < N →
        get_disjoint (2 * k + 1) = 2 * k + 2 ∧
          get_disjoint (2 * k + 2) = 2 * k + 1 := by
  refine ⟨?_, ?_⟩
  · by_cases hd : (2 : ℤ) ∣ (i - 1)
    · have hg1 : get_disjoint i = i + 1 := by rw [get_disjoint_eq, if_pos hd]
      rw [hg1, get_disjoint_eq, if_neg (by omega)]
      ring
    · have hg1 : get_disjoint i = i - 1 := by rw [get_disjoint_eq, if_neg hd]
      rw [hg1, get_disjoint_eq, if_pos (by omega)]
      ring
  · intro k _
    constructor
    · rw [get_disjoint_eq, if_pos (by omega)]
      ring
    · rw [get_disjoint_eq, if_neg (by omega)]
      ring

theorem get_disjoint_involution_witness :
    (1 : ℤ) ≤ 1 ∧ (1 : ℤ) ≤ 2 * (3 : ℕ) ∧
      (get_disjoint (get_disjoint 1) = 1 ∧
        ∀ k : ℕ, k < 3 →
          get_disjoint (2 * k + 1) = 2 * k + 2 ∧
            get_disjoint (2 * k + 2) = 2 * k + 1) :=
  ⟨by norm_num, by norm_num,
    get_disjoint_involution 3 1 (by norm_num) (by norm_num)⟩

/-- C10: on a non-empty path list, `PathGraph.get_path` at the origin node
id `0` does not fail: Python's `(0-1)//2 == -1` and `(0-1) % 2 == 1` make it
return the reversal of the last path. -/
theorem get_path_origin (g : PathGraph) (h : g.paths ≠ []) :
    g.get_path 0 = some (reverse_path (g.paths.getLast h)) := by
  have e1 : ((0 : ℤ) - 1).fdiv 2 = -1 := by decide
  have e2 : ((0 : ℤ) - 1).emod 2 = 1 := by decide
  have e3 : ¬ (0 ≤ (-1 : ℤ)) := by norm_num
  have e4 : ((-(-1 : ℤ)).toNat : ℕ) = 1 := by decide
  have hlen : 0 < g.paths.length := List.length_pos.mpr h
  unfold PathGraph.get_path py_index
  rw [e1]
  simp only [e2]
  rw [if_neg e3, e4, if_pos (by omega)]
  rw [List.get?_eq_getElem?, ← List.getLast?_eq_getElem?,
    List.getLast?_eq_getLast _ h]
  simp

theorem get_path_origin_witness :
    (PathGraph.mk [[(0, 0), (1, 1)]] o0).get_path 0 =
      some (reverse_path (([[(0, 0), (1, 1)]] : List PPath).getLast
        (by decide))) :=
  get_path_origin (PathGraph.mk [[(0, 0), (1, 1)]] o0) (by decide)

/-- C5: `optimize` runs its stages in the fixed order reloop, then join
(merge), then delete-short, then sort (reorder), each gated by its own
flag, and with all four flags disabled it returns the input geometry
unchanged. -/
theorem optimize_stage_order (g : Geom) (t : ℚ) (choice : ℕ → ℕ) :
    optimize g t false false false false choice = g ∧
      ∀ (s r d j : Bool),
        optimize g t s r d j choice =
          (if s then sort_paths else id)
            ((if d then delete_short_paths t else id)
              ((if j then join_paths t else id)
                ((if r then reloop_paths choice else id) g))) := by
  constructor
  · rfl
  · intro s r d j
    cases s <;> cases r <;> cases d <;> cases j <;> rfl

/-- A path together with its reversal, the identity of a stroke modulo
traversal orientation. -/
def canonPair (p : PPath) : Multiset PPath := {p, p.reverse}

theorem canonPair_reverse (p : PPath) : canonPair p.reverse = canonPair p := by
  unfold canonPair
  rw [List.reverse_reverse]
  exact Multiset.pair_comm _ _

theorem canonPair_orient (rev : Bool) (p : PPath) :
    canonPair (if rev then p.reverse else p) = canonPair p := by
  cases rev
  · rfl
  · exact canonPair_reverse p

theorem find_nearest_eq_none_iff (li : LineIndex) (p : Pt) :
    li.find_nearest p = none ↔ li.alive = [] := by
  unfold LineIndex.find_nearest
  cases hf : argminQ (fun i => sqDist p (pathStart (li.line i))) li.alive with
  | none => simpa using (argminQ_eq_none _ _).mp hf
  | some f =>
    cases hr : argminQ (fun i => sqDist p (pathEnd (li.line i))) li.alive with
    | none => simpa using (argminQ_eq_none _ _).mp hr
    | some r =>
      have hne : li.alive ≠ [] := by
        intro hnil
        rw [(argminQ_eq_none _ _).mpr hnil] at hf
        exact Option.noConfusion hf
      simp only
      constructor
      · intro hcontra
        split at hcontra <;> exact Option.noConfusion hcontra
      · intro hnil
        exact absurd hnil hne

theorem find_nearest_mem {li : LineIndex} {p : Pt} {idx : ℕ} {rev : Bool}
    (h : li.find_nearest p = some (idx, rev)) : idx ∈ li.alive := by
  unfold LineIndex.find_nearest at h
  cases hf : argminQ (fun i => sqDist p (pathStart (li.line i))) li.alive with
  | none => rw [hf] at h; exact Option.noConfusion h
  | some f =>
    cases hr : argminQ (fun i => sqDist p (pathEnd (li.line i))) li.alive with
    | none => rw [hf, hr] at h; exact Option.noConfusion h
    | some r =>
      rw [hf, hr] at h
      simp only at h
      split at h
      · obtain ⟨rfl, rfl⟩ : f = idx ∧ false = rev := by
          simpa using h
        exact argminQ_mem hf
      · obtain ⟨rfl, rfl⟩ : r = idx ∧ true = rev := by
          simpa using h
        exact argminQ_mem hr

theorem pathStart_reverse (p : PPath) : pathStart p.reverse = pathEnd p := by
  unfold pathStart pathEnd
  rw [List.headD_eq_head?, List.head?_reverse, List.getLastD_eq_getLast?]

/-- The endpoint selected by `find_nearest` is at least as close as every
live line's start point. -/
theorem find_nearest_min {li : LineIndex} {p : Pt} {idx : ℕ} {rev : Bool}
    (h : li.find_nearest p = some (idx, rev)) :
    ∀ j ∈ li.alive,
      sqDist p (pathStart (if rev then (li.line idx).reverse else li.line idx)) ≤
        sqDist p (pathStart (li.line j)) := by
  intro j hj
  unfold LineIndex.find_nearest at h
  cases hf : argminQ (fun i => sqDist p (pathStart (li.line i))) li.alive with
  | none => rw [hf] at h; exact Option.noConfusion h
  | some f =>
    cases hr : argminQ (fun i => sqDist p (pathEnd (li.line i))) li.alive with
    | none => rw [hf, hr] at h; exact Option.noConfusion h
    | some r =>
      rw [hf, hr] at h
      simp only at h
      split at h
      · obtain ⟨rfl, rfl⟩ : f = idx ∧ false = rev := by simpa using h
        simpa using argminQ_min hf j hj
      · obtain ⟨rfl, rfl⟩ : r = idx ∧ true = rev := by simpa using h
        simp only [if_true, pathStart_reverse]
        exact le_trans (le_of_not_lt (by assumption)) (argminQ_min hf j hj)

theorem sort_loop_nil (fuel : ℕ) (li : LineIndex) (pos : Pt)
    (h : li.alive = []) : sort_loop fuel li pos = [] := by
  cases fuel with
  | zero => rfl
  | succ fuel =>
    unfold sort_loop
    rw [(find_nearest_eq_none_iff li pos).mpr h]

/-- Invariant of the greedy sorting loop: the emitted lines, taken modulo
orientation, are a permutation of the live lines. -/
theorem sort_loop_perm (fuel : ℕ) :
    ∀ (li : LineIndex) (pos : Pt), li.alive.length ≤ fuel →
      ((sort_loop fuel li pos).map canonPair).Perm
        (li.alive.map fun i => canonPair (li.line i)) := by
  induction fuel with
  | zero =>
    intro li pos h
    have hnil : li.alive = [] := List.length_eq_zero.mp (Nat.le_zero.mp h)
    rw [sort_loop_nil 0 li pos hnil, hnil]
    rfl
  | succ fuel ih =>
    intro li pos h
    by_cases hnil : li.alive = []
    · rw [sort_loop_nil _ li pos hnil, hnil]
      rfl
    · cases hfn : li.find_nearest pos with
      | none => exact absurd ((find_nearest_eq_none_iff li pos).mp hfn) hnil
      | some pr =>
        obtain ⟨idx, rev⟩ := pr
        have hmem := find_nearest_mem hfn
        have hlen : (li.pop idx).alive.length ≤ fuel := by
          unfold LineIndex.pop
          simp only
          rw [List.length_erase_of_mem hmem]
          have : 1 ≤ li.alive.length := List.length_pos.mpr hnil
          omega
        have htail := ih (li.pop idx)
          (pathEnd (if rev then (li.line idx).reverse else li.line idx)) hlen
        have hstep : ((li.pop idx).alive.map fun i => canonPair ((li.pop idx).line i))
            = (li.alive.erase idx).map fun i => canonPair (li.line i) := rfl
        rw [hstep] at htail
        simp only [sort_loop, hfn, List.map_cons]
        rw [canonPair_orient]
        exact List.Perm.trans (List.Perm.cons _ htail)
          ((List.perm_cons_erase hmem).map fun i => canonPair (li.line i)).symm

theorem map_getD_range {α : Type} (l : List α) (d : α) :
    (List.range l.length).map (fun i => l.getD i d) = l := by
  induction l with
  | nil => rfl
  | cons a as ih =>
    rw [List.length_cons, List.range_succ_eq_map, List.map_cons, List.map_map]
    simp only [Function.comp_def, List.getD_cons_zero, List.getD_cons_succ,
      Nat.succ_eq_add_one]
    rw [ih]

theorem filter_pos_idem (l : List PPath) :
    (l.filter pos_length).filter pos_length = l.filter pos_length := by
  simp [List.filter_filter]

/-- C1 (amended): the greedy reorder emits a permutation of the input's
positive-length paths, each unchanged modulo orientation reversal, with no
repeats and no omissions; zero-length paths are dropped. -/
theorem sort_paths_single_perm (paths : List PPath) :
    ((sort_paths_single paths).map canonPair).Perm
      ((paths.filter pos_length).map canonPair) := by
  unfold sort_paths_single
  by_cases hlt : (paths.filter pos_length).length < 2
  · rw [if_pos hlt]
  · rw [if_neg hlt]
    have hinit : LineIndex.init (paths.filter pos_length) =
        ⟨paths.filter pos_length,
          List.range (paths.filter pos_length).length⟩ := by
      unfold LineIndex.init
      rw [filter_pos_idem]
    have h := sort_loop_perm (paths.filter pos_length).length
      (LineIndex.init (paths.filter pos_length)) o0 (by rw [hinit]; simp)
    rw [hinit] at h
    rw [hinit]
    refine h.trans ?_
    have hperm : ((List.range (paths.filter pos_length).length).map
        fun i => canonPair ((paths.filter pos_length).getD i [])).Perm
        ((paths.filter pos_length).map canonPair) := by
      rw [show ((List.range (paths.filter pos_length).length).map
          fun i => canonPair ((paths.filter pos_length).getD i [])) =
          ((List.range (paths.filter pos_length).length).map
            fun i => (paths.filter pos_length).getD i []).map canonPair from by
        rw [List.map_map]
        rfl]
      rw [map_getD_range]
    exact hperm

/-- C1 counterexample: a collection holding one zero-length path comes back
from `_sort_paths_single` with zero paths, not one. -/
theorem sort_paths_single_counterexample :
    sort_paths_single [[(1, 1), (1, 1)]] = [] ∧
      ([[(1, 1), (1, 1)]] : List PPath).length = 1 := by
  constructor
  · rfl
  · rfl

theorem find_nearest_within_neg (li : LineIndex) (p : Pt) {tol : ℚ}
    (h : tol < 0) : li.find_nearest_within p tol = none := by
  have hw : ∀ d2 : ℚ, LineIndex.within_tol d2 tol = false := by
    intro d2
    unfold LineIndex.within_tol
    simp [not_le.mpr h]
  unfold LineIndex.find_nearest_within
  cases hf : argminQ (fun i => sqDist p (pathStart (li.line i))) li.alive with
  | none => rfl
  | some f =>
    simp only [hw, Bool.false_eq_true, if_false]
    cases hr : argminQ (fun i => sqDist p (pathEnd (li.line i))) li.alive with
    | none => rfl
    | some r => simp only [hw, Bool.false_eq_true, if_false]

theorem join_inner_neg (fuel : ℕ) (li : LineIndex) (path : PPath) {tol : ℚ}
    (h : tol < 0) : join_inner fuel li path tol = (path, li) := by
  cases fuel with
  | zero => rfl
  | succ fuel =>
    unfold join_inner
    rw [find_nearest_within_neg li _ h, find_nearest_within_neg li _ h]

theorem join_inner_lines (fuel : ℕ) :
    ∀ (li : LineIndex) (path : PPath) (tol : ℚ),
      (join_inner fuel li path tol).2.lines = li.lines := by
  induction fuel with
  | zero => intros; rfl
  | succ fuel ih =>
    intro li path tol
    unfold join_inner
    cases h1 : li.find_nearest_within (pathEnd path) tol with
    | some pr =>
      obtain ⟨idx, rev⟩ := pr
      simp only
      rw [ih]
      rfl
    | none =>
      cases h2 : li.find_nearest_within (pathStart path) tol with
      | none => rfl
      | some pr =>
        obtain ⟨idx, rev⟩ := pr
        simp only
        rw [ih]
        rfl

theorem join_inner_alive (fuel : ℕ) :
    ∀ (li : LineIndex) (path : PPath) (tol : ℚ),
      (join_inner fuel li path tol).2.alive.length ≤ li.alive.length := by
  induction fuel with
  | zero => intros; exact le_refl _
  | succ fuel ih =>
    intro li path tol
    unfold join_inner
    cases h1 : li.find_nearest_within (pathEnd path) tol with
    | some pr =>
      obtain ⟨idx, rev⟩ := pr
      simp only
      exact le_trans (ih _ _ _) (List.length_erase_le _ _)
    | none =>
      cases h2 : li.find_nearest_within (pathStart path) tol with
      | none => exact le_refl _
      | some pr =>
        obtain ⟨idx, rev⟩ := pr
        simp only
        exact le_trans (ih _ _ _) (List.length_erase_le _ _)

theorem next_available_eq_none_iff (li : LineIndex) :
    li.next_available_id = none ↔ li.alive = [] :=
  argminQ_eq_none _ _

theorem next_available_mem {li : LineIndex} {i : ℕ}
    (h : li.next_available_id = some i) : i ∈ li.alive :=
  argminQ_mem h

theorem drain_loop_perm (fuel : ℕ) :
    ∀ li : LineIndex, li.alive.length ≤ fuel →
      (drain_loop fuel li).Perm (li.alive.map li.line) := by
  induction fuel with
  | zero =>
    intro li h
    have hnil : li.alive = [] := List.length_eq_zero.mp (Nat.le_zero.mp h)
    rw [hnil]
    rfl
  | succ fuel ih =>
    intro li h
    unfold drain_loop
    cases hn : li.next_available_id with
    | none =>
      rw [(next_available_eq_none_iff li).mp hn]
      rfl
    | some i =>
      have hmem := next_available_mem hn
      have hlen : (li.pop i).alive.length ≤ fuel := by
        have h1 : 1 ≤ li.alive.length := List.length_pos.mpr
          (List.ne_nil_of_mem hmem)
        have h2 : (li.pop i).alive.length = li.alive.length - 1 := by
          unfold LineIndex.pop
          simp only
          exact List.length_erase_of_mem hmem
        omega
      exact (List.Perm.cons _ (ih (li.pop i) hlen)).trans
        ((List.perm_cons_erase hmem).map li.line).symm

theorem drain_loop_length (fuel : ℕ) :
    ∀ li : LineIndex, (drain_loop fuel li).length ≤ li.alive.length := by
  induction fuel with
  | zero => intro li; exact Nat.zero_le _
  | succ fuel ih =>
    intro li
    unfold drain_loop
    cases hn : li.next_available_id with
    | none => exact Nat.zero_le _
    | some i =>
      have hmem := next_available_mem hn
      have h1 : 1 ≤ li.alive.length := List.length_pos.mpr
        (List.ne_nil_of_mem hmem)
      have h2 : (li.pop i).alive.length = li.alive.length - 1 := by
        unfold LineIndex.pop
        simp only
        exact List.length_erase_of_mem hmem
      have h3 := ih (li.pop i)
      simp only [List.length_cons]
      omega

theorem join_outer_length (fuel : ℕ) :
    ∀ (li : LineIndex) (tol : ℚ),
      (join_outer fuel li tol).length ≤ li.alive.length := by
  induction fuel with
  | zero => intro li tol; exact drain_loop_length _ li
  | succ fuel ih =>
    intro li tol
    unfold join_outer
    by_cases hle : li.alive.length ≤ 1
    · rw [if_pos hle]
      exact drain_loop_length _ li
    · rw [if_neg hle]
      cases hn : li.next_available_id with
      | none => simp
      | some i =>
        have hmem := next_available_mem hn
        simp only [List.length_cons]
        have h1 := join_inner_alive (li.pop i).alive.length (li.pop i)
          (li.line i) tol
        have h2 := ih (join_inner (li.pop i).alive.length (li.pop i)
          (li.line i) tol).2 tol
        have h3 : (li.pop i).alive.length = li.alive.length - 1 := by
          unfold LineIndex.pop
          simp only
          exact List.length_erase_of_mem hmem
        omega

theorem join_outer_perm_neg (fuel : ℕ) :
    ∀ (li : LineIndex) (tol : ℚ), tol < 0 →
      (join_outer fuel li tol).Perm (li.alive.map li.line) := by
  induction fuel with
  | zero => intro li tol _; exact drain_loop_perm _ li (le_refl _)
  | succ fuel ih =>
    intro li tol h
    unfold join_outer
    by_cases hle : li.alive.length ≤ 1
    · rw [if_pos hle]
      exact drain_loop_perm _ li (le_refl _)
    · rw [if_neg hle]
      cases hn : li.next_available_id with
      | none =>
        refine absurd ((next_available_eq_none_iff li).mp hn) ?_
        intro hnil
        rw [hnil] at hle
        simp at hle
      | some i =>
        have hmem := next_available_mem hn
        simp only
        rw [join_inner_neg _ _ _ h]
        exact (List.Perm.cons _ (ih (li.pop i) tol h)).trans
          ((List.perm_cons_erase hmem).map li.line).symm

/-- C2 (amended): `_join_paths_single` never increases the path count, and
for a negative tolerance it returns exactly the input's positive-length
paths, each unchanged, as an unordered multiset (the emission order is the
greedy nearest-to-origin order, and zero-length paths are dropped); at
tolerance 0 exactly-coincident endpoints are still welded. -/
theorem join_paths_single_conservative :
    (∀ (paths : List PPath) (tol : ℚ),
        (join_paths_single paths tol).length ≤ paths.length) ∧
      ∀ (paths : List PPath) (tol : ℚ), tol < 0 →
        (join_paths_single paths tol).Perm (paths.filter pos_length) := by
  constructor
  · intro paths tol
    unfold join_paths_single
    by_cases hlt : (paths.filter pos_length).length < 2
    · rw [if_pos hlt]
      exact List.length_filter_le _ _
    · rw [if_neg hlt]
      refine le_trans (join_outer_length _ _ _) ?_
      rw [show (LineIndex.init (paths.filter pos_length)).alive =
          List.range (paths.filter pos_length).length from by
        unfold LineIndex.init
        rw [filter_pos_idem]]
      rw [List.length_range]
      exact List.length_filter_le _ _
  · intro paths tol h
    unfold join_paths_single
    by_cases hlt : (paths.filter pos_length).length < 2
    · rw [if_pos hlt]
    · rw [if_neg hlt]
      have hinit : LineIndex.init (paths.filter pos_length) =
          ⟨paths.filter pos_length,
            List.range (paths.filter pos_length).length⟩ := by
        unfold LineIndex.init
        rw [filter_pos_idem]
      rw [hinit]
      refine (join_outer_perm_neg _ _ _ h).trans ?_
      exact List.Perm.of_eq (map_getD_range (paths.filter pos_length) [])

theorem join_paths_single_conservative_witness :
    ((-1 : ℚ) < 0) ∧
      (join_paths_single [[(0, 0), (1, 0)], [(5, 0), (6, 0)], [(1, 0), (2, 0)]]
          (-1)).Perm
        (([[(0, 0), (1, 0)], [(5, 0), (6, 0)], [(1, 0), (2, 0)]] :
          List PPath).filter pos_length) :=
  ⟨by norm_num, join_paths_single_conservative.2 _ (-1) (by norm_num)⟩

section
attribute [local semireducible] Rat.add Rat.sub Rat.mul Rat.inv

/-- C2 counterexample: at tolerance 0 two paths sharing an exactly
coincident endpoint are welded, so the output is not equal to the input. -/
theorem join_paths_single_counterexample :
    (join_paths_single [[(0, 0), (1, 0)], [(1, 0), (2, 0)]] 0).length = 1 ∧
      ([[(0, 0), (1, 0)], [(1, 0), (2, 0)]] : List PPath).length = 2 := by
  constructor
  · decide
  · rfl

end

theorem greedy_walk_loop_subset (fuel : ℕ) :
    ∀ (g : PathGraph) (alive : List ℤ) (loc : Pt),
      ∀ n ∈ greedy_walk_loop fuel g alive loc, n ∈ alive := by
  induction fuel with
  | zero => intro g alive loc n hn; simp [greedy_walk_loop] at hn
  | succ fuel ih =>
    intro g alive loc n hn
    unfold greedy_walk_loop at hn
    cases hm : argminQ (fun i => sqDist loc (g.node_start i.toNat)) alive with
    | none => rw [hm] at hn; simp at hn
    | some m =>
      rw [hm] at hn
      rcases List.mem_cons.mp hn with rfl | hn'
      · exact argminQ_mem hm
      · have h1 := ih g ((alive.erase m).erase (get_disjoint m))
          (g.node_end m.toNat) n hn'
        exact (List.erase_sublist _ _).subset
          ((List.erase_sublist _ _).subset h1)

/-- Invariant of the greedy walk: over a duplicate-free live set, every
yielded node is distinct from, and never the disjoint partner of, every
earlier yielded node. -/
theorem greedy_walk_loop_pairwise (fuel : ℕ) :
    ∀ (g : PathGraph) (alive : List ℤ) (loc : Pt), alive.Nodup →
      (greedy_walk_loop fuel g alive loc).Pairwise
        fun a b => b ≠ a ∧ b ≠ get_disjoint a := by
  induction fuel with
  | zero => intro g alive loc _; exact List.Pairwise.nil
  | succ fuel ih =>
    intro g alive loc hnd
    unfold greedy_walk_loop
    cases hm : argminQ (fun i => sqDist loc (g.node_start i.toNat)) alive with
    | none => exact List.Pairwise.nil
    | some m =>
      have hmem := argminQ_mem hm
      have hnd1 : (alive.erase m).Nodup := hnd.erase m
      have hnd2 : ((alive.erase m).erase (get_disjoint m)).Nodup :=
        hnd1.erase _
      refine List.Pairwise.cons ?_ (ih g _ _ hnd2)
      intro b hb
      have hb1 : b ∈ (alive.erase m).erase (get_disjoint m) :=
        greedy_walk_loop_subset fuel g _ _ b hb
      have hb2 : b ∈ alive.erase m := (List.erase_sublist _ _).subset hb1
      constructor
      · exact ((List.Nodup.mem_erase_iff hnd).mp hb2).1
      · exact ((List.Nodup.mem_erase_iff hnd1).mp hb1).1

/-- C9: the node sequence yielded by `greedy_walk` never contains both
members of a disjoint pair — deleting the selected node and its disjoint
partner together means no physical path is ever visited twice (and no node
is repeated). -/
theorem greedy_walk_no_disjoint_pair (paths : List PPath) (origin : Pt) :
    (greedy_walk (PathGraph.mk paths origin)).Pairwise
      fun a b => b ≠ a ∧ b ≠ get_disjoint a := by
  unfold greedy_walk
  refine greedy_walk_loop_pairwise _ _ _ _ ?_
  unfold PathGraph.node_ids
  refine List.Nodup.map ?_ (List.nodup_range _)
  intro a b hab
  have hab' : (a : ℤ) + 1 = (b : ℤ) + 1 := hab
  omega

theorem headD_append_left {α : Type} (l l' : List α) (d : α) (h : l ≠ []) :
    (l ++ l').headD d = l.headD d := by
  cases l with
  | nil => exact absurd rfl h
  | cons a t => rfl

theorem headD_mem {α : Type} (l : List α) (d : α) (h : l ≠ []) :
    l.headD d ∈ l := by
  cases l with
  | nil => exact absurd rfl h
  | cons a t => exact List.mem_cons_self a t

theorem pathEnd_cons (x : Pt) (l : PPath) (h : l ≠ []) :
    pathEnd (x :: l) = pathEnd l := by
  unfold pathEnd
  rw [List.getLastD_eq_getLast?, List.getLastD_eq_getLast?,
    List.getLast?_eq_getLast _ h,
    List.getLast?_eq_getLast (x :: l) (List.cons_ne_nil x l)]
  simp [List.getLast_cons h]

theorem pathEnd_concat (xs : PPath) (z : Pt) : pathEnd (xs ++ [z]) = z := by
  unfold pathEnd
  exact List.getLastD_concat _ _ _

theorem path_length_single (a : Pt) : path_length [a] = 0 := rfl

theorem path_length_cons_cons (x y : Pt) (l : List Pt) :
    path_length (x :: y :: l) = rdist x y + path_length (y :: l) := by
  unfold path_length seg_pairs
  simp

theorem path_length_append_last (xs : PPath) (z : Pt) (h : xs ≠ []) :
    path_length (xs ++ [z]) = path_length xs + rdist (pathEnd xs) z := by
  induction xs with
  | nil => exact absurd rfl h
  | cons x xs ih =>
    cases xs with
    | nil =>
      show path_length [x, z] = path_length [x] + rdist (pathEnd [x]) z
      rw [path_length_cons_cons, path_length_single, path_length_single]
      show rdist x z + 0 = 0 + rdist x z
      ring
    | cons y ys =>
      have h2 : (y :: ys) ≠ [] := List.cons_ne_nil y ys
      have ih' := ih h2
      simp only [List.cons_append] at ih' ⊢
      rw [path_length_cons_cons, ih', path_length_cons_cons,
        pathEnd_cons x (y :: ys) h2]
      ring

theorem cyc_step (cs : PPath) (h : cs ≠ []) :
    path_length (cs.rotate 1 ++ [(cs.rotate 1).headD o0]) =
      path_length (cs ++ [cs.headD o0]) := by
  cases cs with
  | nil => exact absurd rfl h
  | cons a t =>
    rw [show (a :: t).rotate 1 = t ++ [a] from by
      rw [List.rotate_cons_succ, List.rotate_zero]]
    cases t with
    | nil => rfl
    | cons b t' =>
      have hd : ((b :: t') ++ [a]).headD o0 = b := rfl
      rw [hd]
      have hne : (b :: t') ++ [a] ≠ [] := by simp
      rw [path_length_append_last _ b hne, pathEnd_concat]
      rw [show ((a :: b :: t').headD o0) = a from rfl]
      simp only [List.cons_append]
      rw [path_length_cons_cons]
      ring

theorem cyc_rotate (i : ℕ) : ∀ (cs : PPath), cs ≠ [] →
    path_length (cs.rotate i ++ [(cs.rotate i).headD o0]) =
      path_length (cs ++ [cs.headD o0]) := by
  induction i with
  | zero => intro cs _; rw [List.rotate_zero]
  | succ i ih =>
    intro cs h
    have h1 : cs.rotate 1 ≠ [] := by
      intro hc
      apply h
      apply List.length_eq_zero.mp
      have := congrArg List.length hc
      rwa [List.length_rotate] at this
    rw [show cs.rotate (i + 1) = (cs.rotate 1).rotate i from by
      rw [List.rotate_rotate, Nat.add_comm 1 i]]
    rw [ih (cs.rotate 1) h1, cyc_step cs h]

theorem rdist_horiz (a b y : ℚ) : rdist (a, y) (b, y) = |(a : ℝ) - (b : ℝ)| := by
  unfold rdist sqDist
  push_cast
  rw [show ((a : ℝ) - b) * ((a : ℝ) - b) + ((y : ℝ) - y) * ((y : ℝ) - y) =
    ((a : ℝ) - b) ^ 2 by ring]
  exact Real.sqrt_sq_eq_abs _

/-- C6 (the claim is right, the code has a bug): the seam-rotation body of
`_reloop_paths_single` — the behavior the spec calls purely cosmetic and the
`optimize` docstring describes as randomizing the starting point of closed
loops — preserves a closed path's point set and total length and keeps it
closed at every pseudo-random draw, and passes open paths through unchanged,
exactly as claimed.  The stage's trailing `shapely.union_all(lines)` then
nodes and dissolves that linework (a closed self-retracing path such as
(0,0)-(1,0)-(0,0) collapses to a single unit segment of length 1 instead of
keeping length 2, and crossing open paths come back split), so the shipped
stage breaks the claimed property; every sibling stage returns
`MultiLineString(lines)` instead. -/
theorem reloop_path_preserves (coords : PPath) (r : ℕ) :
    (is_closed coords = true →
        (reloop_path r coords).toFinset = coords.toFinset ∧
          path_length (reloop_path r coords) = path_length coords ∧
          is_closed (reloop_path r coords) = true) ∧
      (is_closed coords = false → reloop_path r coords = coords) := by
  constructor
  · intro h
    obtain ⟨hlen2, heq⟩ : 2 ≤ coords.length ∧ pathStart coords = pathEnd coords := by
      unfold is_closed at h
      simpa using h
    have hdef : reloop_path r coords =
        (coords.dropLast.rotate (r % coords.dropLast.length)) ++
          [(coords.dropLast.rotate (r % coords.dropLast.length)).headD o0] := by
      unfold reloop_path
      rw [h]
      rfl
    set cs := coords.dropLast with hcs
    set rot := cs.rotate (r % cs.length) with hrotdef
    have hcslen : cs.length = coords.length - 1 := List.length_dropLast coords
    have hcsne : cs ≠ [] := by
      intro hnil
      rw [hnil] at hcslen
      simp at hcslen
      omega
    have hne : coords ≠ [] := by
      intro h0
      rw [h0] at hlen2
      simp at hlen2
    have hrotlen : rot.length = cs.length := List.length_rotate cs _
    have hrotne : rot ≠ [] := by
      intro h0
      apply hcsne
      apply List.length_eq_zero.mp
      rw [← hrotlen, h0]
      rfl
    have hrepr : coords = cs ++ [cs.headD o0] := by
      have h1 := List.dropLast_append_getLast hne
      have h2 : coords.getLast hne = pathEnd coords := by
        unfold pathEnd
        rw [List.getLastD_eq_getLast?, List.getLast?_eq_getLast _ hne]
        rfl
      have h4 : pathStart coords = cs.headD o0 := by
        conv_lhs => rw [← h1]
        unfold pathStart
        exact headD_append_left _ _ _ hcsne
      rw [← h4, heq, ← h2]
      exact h1.symm
    refine ⟨?_, ?_, ?_⟩
    · rw [hdef, List.toFinset_append,
        List.toFinset_eq_of_perm _ _ (List.rotate_perm cs _)]
      have habs1 : cs.toFinset ∪ [rot.headD o0].toFinset = cs.toFinset := by
        refine Finset.union_eq_left.mpr ?_
        intro x hx
        simp only [List.toFinset_cons, List.toFinset_nil,
          insert_emptyc_eq, Finset.mem_singleton] at hx
        subst hx
        rw [List.mem_toFinset]
        exact (List.rotate_perm cs _).subset (headD_mem rot o0 hrotne)
      rw [habs1]
      conv_rhs => rw [hrepr]
      rw [List.toFinset_append]
      have habs2 : cs.toFinset ∪ [cs.headD o0].toFinset = cs.toFinset := by
        refine Finset.union_eq_left.mpr ?_
        intro x hx
        simp only [List.toFinset_cons, List.toFinset_nil,
          insert_emptyc_eq, Finset.mem_singleton] at hx
        subst hx
        rw [List.mem_toFinset]
        exact headD_mem cs o0 hcsne
      rw [habs2]
    · rw [hdef]
      conv_rhs => rw [hrepr]
      exact cyc_rotate (r % cs.length) cs hcsne
    · rw [hdef]
      have h1 : pathStart (rot ++ [rot.headD o0]) = rot.headD o0 := by
        unfold pathStart
        exact headD_append_left _ _ _ hrotne
      have h2 : pathEnd (rot ++ [rot.headD o0]) = rot.headD o0 :=
        pathEnd_concat _ _
      have h3 : 2 ≤ (rot ++ [rot.headD o0]).length := by
        have hrl : rot.length = cs.length := hrotlen
        rw [List.length_append]
        simp only [List.length_cons, List.length_nil]
        omega
      unfold is_closed
      rw [h1, h2]
      have hrl : 1 ≤ rot.length := by
        rw [hrotlen]
        exact List.length_pos.mpr hcsne
      rw [Bool.and_eq_true, decide_eq_true_eq, decide_eq_true_eq]
      refine ⟨?_, rfl⟩
      rw [List.length_append]
      simp only [List.length_cons, List.length_nil]
      omega
  · intro h
    unfold reloop_path
    rw [h]
    simp

section
attribute [local semireducible] Rat.add Rat.sub Rat.mul Rat.inv

theorem reloop_path_preserves_witness :
    ((reloop_path 1 [(0, 0), (1, 0), (0, 0)]).toFinset =
        ([(0, 0), (1, 0), (0, 0)] : PPath).toFinset ∧
      path_length (reloop_path 1 [(0, 0), (1, 0), (0, 0)]) =
          path_length [(0, 0), (1, 0), (0, 0)] ∧
        is_closed (reloop_path 1 [(0, 0), (1, 0), (0, 0)]) = true) ∧
      path_length [(0, 0), (1, 0), (0, 0)] = 2 :=
  ⟨(reloop_path_preserves [(0, 0), (1, 0), (0, 0)] 1).1 (by decide),
    by
      have e : path_length [((0 : ℚ), (0 : ℚ)), (1, 0), (0, 0)] =
          rdist ((0 : ℚ), (0 : ℚ)) ((1 : ℚ), (0 : ℚ)) +
            (rdist ((1 : ℚ), (0 : ℚ)) ((0 : ℚ), (0 : ℚ)) + 0) := rfl
      rw [e, rdist_horiz 0 1 0, rdist_horiz 1 0 0]
      norm_num⟩

end

/-- The inter-stroke pen-up gaps of a layer in sequence order. -/
noncomputable def gaps_sum (paths : List PPath) : ℝ :=
  ((paths.zip paths.tail).map fun pr => rdist (pathEnd pr.1) (pathStart pr.2)).sum

/-- Pen-up distance as the spec words it, without a return leg: the gap from
the origin to the first stroke plus the gaps between consecutive strokes. -/
noncomputable def spec_up_length : List PPath → ℝ
  | [] => 0
  | p :: rest => rdist o0 (pathStart p) + gaps_sum (p :: rest)

/-- Pen-up distance as claimed, with the final travel from the last stroke
back to the origin added. -/
noncomputable def claimed_up_length : List PPath → ℝ
  | [] => 0
  | p :: rest =>
    rdist o0 (pathStart p) + gaps_sum (p :: rest) +
      rdist (pathEnd ((p :: rest).getLast (List.cons_ne_nil p rest))) o0

theorem gaps_sum_cons (p q : PPath) (rest : List PPath) :
    gaps_sum (p :: q :: rest) =
      rdist (pathEnd p) (pathStart q) + gaps_sum (q :: rest) := by
  simp [gaps_sum]

theorem up_length_from_cons (rest : List PPath) :
    ∀ (pos : Pt) (p : PPath),
      up_length_from pos (p :: rest) =
        rdist pos (pathStart p) + gaps_sum (p :: rest) := by
  induction rest with
  | nil => intro pos p; simp [up_length_from, gaps_sum]
  | cons q rest' ih =>
    intro pos p
    show rdist pos (pathStart p) + up_length_from (pathEnd p) (q :: rest') = _
    rw [ih (pathEnd p) q, gaps_sum_cons]

/-- C7 (amended): `up_length` is exactly the sum of the origin-to-first-
stroke gap and the gaps between consecutive stroke endpoints in sequence
order — with no return leg from the last stroke to the origin. -/
theorem up_length_eq_spec (paths : List PPath) :
    up_length paths = spec_up_length paths := by
  cases paths with
  | nil => rfl
  | cons p rest =>
    show up_length_from o0 (p :: rest) = spec_up_length (p :: rest)
    rw [up_length_from_cons rest o0 p]
    rfl

/-- C7 counterexample: on the single stroke (3,0)-(4,0), `up_length` is 3
(origin to start), while the claimed formula with the return leg gives 7. -/
theorem up_length_counterexample :
    up_length [[(3, 0), (4, 0)]] ≠ claimed_up_length [[(3, 0), (4, 0)]] := by
  have h1 : up_length [[(3, 0), (4, 0)]] = 3 := by
    have e0 : up_length [[(3, 0), (4, 0)]] =
        rdist ((0 : ℚ), (0 : ℚ)) ((3 : ℚ), (0 : ℚ)) + 0 := rfl
    rw [e0, rdist_horiz 0 3 0]
    norm_num
  have h2 : claimed_up_length [[(3, 0), (4, 0)]] = 7 := by
    have e0 : claimed_up_length [[(3, 0), (4, 0)]] =
        rdist ((0 : ℚ), (0 : ℚ)) ((3 : ℚ), (0 : ℚ)) +
          gaps_sum [[(3, 0), (4, 0)]] +
            rdist ((4 : ℚ), (0 : ℚ)) ((0 : ℚ), (0 : ℚ)) := rfl
    rw [e0, rdist_horiz 0 3 0, rdist_horiz 4 0 0,
      show gaps_sum [[((3 : ℚ), (0 : ℚ)), (4, 0)]] = 0 from by simp [gaps_sum]]
    norm_num
  rw [h1, h2]
  norm_num

/-- The first pen-up move of a layer: origin to the first stroke's start. -/
noncomputable def first_gap (paths : List PPath) : ℝ :=
  rdist o0 (pathStart (paths.headD []))

theorem rdist_le_rdist {a b c d : Pt} (h : sqDist a b ≤ sqDist c d) :
    rdist a b ≤ rdist c d := by
  unfold rdist
  apply Real.sqrt_le_sqrt
  exact_mod_cast h

/-- C3 (amended): on a collection of positive-length paths the greedy
reorder never worsens the first pen-up move — its origin-to-first-start
distance is at most the input order's — though the total pen-up distance can
increase. -/
theorem sort_first_gap_le (paths : List PPath)
    (h : ∀ p ∈ paths, pos_length p = true) :
    first_gap (sort_paths_single paths) ≤ first_gap paths := by
  have hf : paths.filter pos_length = paths := List.filter_eq_self.mpr h
  unfold sort_paths_single
  rw [hf]
  by_cases hlt : paths.length < 2
  · rw [if_pos hlt]
  · rw [if_neg hlt]
    have hinit : LineIndex.init paths = ⟨paths, List.range paths.length⟩ := by
      unfold LineIndex.init
      rw [hf]
    rw [hinit]
    obtain ⟨m, hm⟩ : ∃ m, paths.length = m + 1 := ⟨paths.length - 1, by omega⟩
    rw [hm]
    have hane : (⟨paths, List.range (m + 1)⟩ : LineIndex).alive ≠ [] := by
      simp only
      intro hcontra
      have hl := congrArg List.length hcontra
      rw [List.length_range] at hl
      simp at hl
    cases hfn : (⟨paths, List.range (m + 1)⟩ : LineIndex).find_nearest o0 with
    | none => exact absurd ((find_nearest_eq_none_iff _ o0).mp hfn) hane
    | some pr =>
      obtain ⟨idx, rev⟩ := pr
      simp only [sort_loop, hfn]
      unfold first_gap
      rw [List.headD_cons]
      have h0mem : 0 ∈ (⟨paths, List.range (m + 1)⟩ : LineIndex).alive := by
        simp only [List.mem_range]
        omega
      have hminim := find_nearest_min hfn 0 h0mem
      have hline0 : (⟨paths, List.range (m + 1)⟩ : LineIndex).line 0 =
          paths.headD [] := by
        cases paths with
        | nil => simp at hlt
        | cons a t => rfl
      rw [hline0] at hminim
      exact rdist_le_rdist hminim

section
attribute [local semireducible] Rat.add Rat.sub Rat.mul Rat.inv

theorem sort_first_gap_le_witness :
    (∀ p ∈ ([[(1, 0), (2, 0)], [(0, 3), (0, 4)]] : List PPath),
        pos_length p = true) ∧
      first_gap (sort_paths_single [[(1, 0), (2, 0)], [(0, 3), (0, 4)]]) ≤
        first_gap [[(1, 0), (2, 0)], [(0, 3), (0, 4)]] :=
  ⟨by decide, sort_first_gap_le _ (by decide)⟩

/-- C3 counterexample: greedy reordering of three collinear strokes, given
in an order the greedy walk does not find, STRICTLY INCREASES the pen-up
distance (5.4 against the input order's 4.8). -/
theorem sort_up_length_counterexample :
    ¬ (up_length (sort_paths_single
          [[(-3/2, 0), (-7/5, 0)], [(1, 0), (11/10, 0)], [(2, 0), (21/10, 0)]]) ≤
        up_length
          [[(-3/2, 0), (-7/5, 0)], [(1, 0), (11/10, 0)], [(2, 0), (21/10, 0)]]) := by
  have hs : sort_paths_single
      [[(-3/2, 0), (-7/5, 0)], [(1, 0), (11/10, 0)], [(2, 0), (21/10, 0)]] =
      [[(1, 0), (11/10, 0)], [(2, 0), (21/10, 0)], [(-7/5, 0), (-3/2, 0)]] := by
    decide
  rw [hs]
  have h1 : up_length
      [[((1 : ℚ), (0 : ℚ)), (11/10, 0)], [(2, 0), (21/10, 0)],
        [(-7/5, 0), (-3/2, 0)]] =
      rdist ((0 : ℚ), (0 : ℚ)) ((1 : ℚ), (0 : ℚ)) +
        (rdist ((11/10 : ℚ), (0 : ℚ)) ((2 : ℚ), (0 : ℚ)) +
          (rdist ((21/10 : ℚ), (0 : ℚ)) ((-7/5 : ℚ), (0 : ℚ)) + 0)) := rfl
  have h2 : up_length
      [[((-3/2 : ℚ), (0 : ℚ)), (-7/5, 0)], [(1, 0), (11/10, 0)],
        [(2, 0), (21/10, 0)]] =
      rdist ((0 : ℚ), (0 : ℚ)) ((-3/2 : ℚ), (0 : ℚ)) +
        (rdist ((-7/5 : ℚ), (0 : ℚ)) ((1 : ℚ), (0 : ℚ)) +
          (rdist ((11/10 : ℚ), (0 : ℚ)) ((2 : ℚ), (0 : ℚ)) + 0)) := rfl
  rw [h1, h2, rdist_horiz 0 1 0, rdist_horiz (11/10) 2 0,
    rdist_horiz (21/10) (-7/5) 0, rdist_horiz 0 (-3/2) 0,
    rdist_horiz (-7/5) 1 0]
  norm_num [abs_of_nonneg]

end

/-- The spec's validity condition on a node order over `N` physical paths:
the forward node `2k+1` or the reverse node `2k+2` of every path `k` is
selected exactly once, and nothing outside the node range is selected. -/
def selects_each_path_once (N : ℕ) (sol : List ℤ) : Prop :=
  (∀ k < N, sol.count (2 * (k : ℤ) + 1) + sol.count (2 * (k : ℤ) + 2) = 1) ∧
    ∀ i ∈ sol, 1 ≤ i ∧ i ≤ 2 * N

theorem endpoints_length (g : PathGraph) :
    g.num_nodes = 2 * g.paths.length + 1 := by
  unfold PathGraph.num_nodes PathGraph.endpoints
  rw [List.length_cons]
  have hflat : ∀ l : List PPath,
      (l.flatMap fun p =>
        [(pathStart p, pathEnd p), (pathEnd p, pathStart p)]).length =
        2 * l.length := by
    intro l
    induction l with
    | nil => rfl
    | cons a t ih =>
      rw [List.flatMap_cons, List.length_append, ih]
      simp only [List.length_cons, List.length_nil]
      ring
  rw [hflat]

theorem pair_min_odd (k : ℕ) :
    min (2 * (k : ℤ) + 1) (get_disjoint (2 * (k : ℤ) + 1)) = 2 * (k : ℤ) + 1 := by
  rw [get_disjoint_eq, if_pos (by omega)]
  exact min_eq_left (by omega)

theorem pair_min_even (k : ℕ) :
    min (2 * (k : ℤ) + 2) (get_disjoint (2 * (k : ℤ) + 2)) = 2 * (k : ℤ) + 1 := by
  rw [get_disjoint_eq, if_neg (by omega)]
  rw [min_eq_right (by omega)]
  ring

theorem pair_min_nonpos {i : ℤ} (h : i ≤ 0) : min i (get_disjoint i) ≤ 0 := by
  rw [get_disjoint_eq]
  by_cases hd : (2 : ℤ) ∣ (i - 1)
  · rw [if_pos hd]
    exact le_trans (min_le_left _ _) h
  · rw [if_neg hd]
    exact le_trans (min_le_right _ _) (by omega)

theorem pair_min_eq_iff (k : ℕ) (i : ℤ) :
    min i (get_disjoint i) = 2 * (k : ℤ) + 1 ↔
      i = 2 * (k : ℤ) + 1 ∨ i = 2 * (k : ℤ) + 2 := by
  constructor
  · intro h
    by_cases hp : 1 ≤ i
    · rw [get_disjoint_eq] at h
      by_cases hd : (2 : ℤ) ∣ (i - 1)
      · rw [if_pos hd, min_eq_left (by omega)] at h
        left
        exact h
      · rw [if_neg hd, min_eq_right (by omega)] at h
        right
        omega
    · exfalso
      have := pair_min_nonpos (show i ≤ 0 by omega)
      omega
  · intro h
    rcases h with rfl | rfl
    · exact pair_min_odd k
    · exact pair_min_even k

theorem count_map_pair_min (sol : List ℤ) (k : ℕ) :
    (sol.map fun i => min i (get_disjoint i)).count (2 * (k : ℤ) + 1) =
      sol.count (2 * (k : ℤ) + 1) + sol.count (2 * (k : ℤ) + 2) := by
  induction sol with
  | nil => rfl
  | cons i s ih =>
    simp only [List.map_cons, List.count_cons, ih, beq_iff_eq]
    have hiff := pair_min_eq_iff k i
    split_ifs <;> omega

theorem node_ids_filter (N : ℕ) :
    ((List.map (fun k : ℕ => (k : ℤ) + 1) (List.range (2 * N))).filter
        fun i => i < get_disjoint i) =
      List.map (fun k : ℕ => 2 * (k : ℤ) + 1) (List.range N) := by
  induction N with
  | zero => rfl
  | succ n ih =>
    have h1 : (((2 * n : ℕ) : ℤ) + 1) < get_disjoint (((2 * n : ℕ) : ℤ) + 1) := by
      rw [get_disjoint_eq, if_pos (by push_cast; omega)]
      omega
    have h2 : ¬ ((((2 * n + 1 : ℕ) : ℤ) + 1) <
        get_disjoint (((2 * n + 1 : ℕ) : ℤ) + 1)) := by
      rw [get_disjoint_eq, if_neg (by push_cast; omega)]
      omega
    rw [show 2 * (n + 1) = (2 * n + 1) + 1 from by ring, List.range_succ,
      List.range_succ, List.map_append, List.map_append, List.filter_append,
      List.filter_append, ih]
    rw [List.range_succ, List.map_append]
    simp only [List.map_cons, List.map_nil, List.filter_cons, List.filter_nil,
      decide_eq_true_eq, h1, if_true, h2, if_false]
    simp only [List.append_nil]
    congr 2

theorem count_odd_list (N k : ℕ) :
    (List.map (fun j : ℕ => 2 * (j : ℤ) + 1) (List.range N)).count
        (2 * (k : ℤ) + 1) = if k < N then 1 else 0 := by
  induction N with
  | zero => simp
  | succ n ih =>
    rw [List.range_succ, List.map_append, List.count_append, ih]
    simp only [List.map_cons, List.map_nil, List.count_cons, List.count_nil,
      beq_iff_eq]
    split_ifs <;> omega

theorem mem_odd_list {N : ℕ} {v : ℤ} :
    v ∈ List.map (fun j : ℕ => 2 * (j : ℤ) + 1) (List.range N) ↔
      ∃ k : ℕ, k < N ∧ v = 2 * (k : ℤ) + 1 := by
  simp [List.mem_map, List.mem_range, eq_comm]

theorem check_valid_iff (g : PathGraph) (sol : List ℤ) :
    g.check_valid_solution sol = true ↔
      selects_each_path_once g.paths.length sol := by
  unfold PathGraph.check_valid_solution
  rw [decide_eq_true_iff]
  unfold PathGraph.node_ids
  rw [show g.num_nodes - 1 = 2 * g.paths.length from by
    rw [endpoints_length]
    omega]
  rw [node_ids_filter g.paths.length]
  constructor
  · intro hM
    constructor
    · intro k hk
      have hc := congrArg (Multiset.count (2 * (k : ℤ) + 1)) hM
      rw [Multiset.coe_count, Multiset.coe_count, count_odd_list,
        count_map_pair_min, if_pos hk] at hc
      omega
    · intro i hi
      have hmem : min i (get_disjoint i) ∈
          (sol.map fun i => min i (get_disjoint i)) :=
        List.mem_map_of_mem _ hi
      have hmem2 : min i (get_disjoint i) ∈
          List.map (fun j : ℕ => 2 * (j : ℤ) + 1)
            (List.range g.paths.length) :=
        Multiset.mem_coe.mp (hM ▸ Multiset.mem_coe.mpr hmem)
      rw [mem_odd_list] at hmem2
      obtain ⟨k, hk, hv⟩ := hmem2
      have := (pair_min_eq_iff k i).mp hv
      omega
  · intro hval
    obtain ⟨h1, h2⟩ := hval
    apply Multiset.ext.mpr
    intro v
    rw [Multiset.coe_count, Multiset.coe_count]
    by_cases hv : ∃ k : ℕ, k < g.paths.length ∧ v = 2 * (k : ℤ) + 1
    · obtain ⟨k, hk, rfl⟩ := hv
      rw [count_odd_list, if_pos hk, count_map_pair_min]
      exact (h1 k hk).symm
    · have hz1 : (List.map (fun j : ℕ => 2 * (j : ℤ) + 1)
          (List.range g.paths.length)).count v = 0 := by
        apply List.count_eq_zero.mpr
        rw [mem_odd_list]
        exact hv
      have hz2 : (sol.map fun i => min i (get_disjoint i)).count v = 0 := by
        apply List.count_eq_zero.mpr
        intro hmem
        obtain ⟨i, hi, hpm⟩ := List.mem_map.mp hmem
        obtain ⟨hge, hle⟩ := h2 i hi
        obtain ⟨k, hk, hcase⟩ : ∃ k : ℕ, k < g.paths.length ∧
            (i = 2 * (k : ℤ) + 1 ∨ i = 2 * (k : ℤ) + 2) :=
          ⟨((i - 1) / 2).toNat, by omega, by omega⟩
        have hmin : min i (get_disjoint i) = 2 * (k : ℤ) + 1 :=
          (pair_min_eq_iff k i).mpr hcase
        exact hv ⟨k, hk, by rw [← hpm, hmin]⟩
      rw [hz1, hz2]

theorem mapM_option_eq_some {α β : Type} (f : α → Option β) (gf : α → β)
    (l : List α) (h : ∀ a ∈ l, f a = some (gf a)) :
    l.mapM f = some (l.map gf) := by
  induction l with
  | nil => rfl
  | cons a t ih =>
    rw [List.mapM_cons, h a (List.mem_cons_self a t),
      ih fun b hb => h b (List.mem_cons_of_mem a hb)]
    rfl

theorem get_path_in_range (g : PathGraph) {i : ℤ} (h1 : 1 ≤ i)
    (h2 : i ≤ 2 * g.paths.length) :
    g.get_path i = some (if (i - 1).emod 2 = 1 then
        reverse_path (g.paths.getD ((i - 1).fdiv 2).toNat [])
      else g.paths.getD ((i - 1).fdiv 2).toNat []) := by
  unfold PathGraph.get_path py_index
  have hge : 0 ≤ (i - 1).fdiv 2 := Int.fdiv_nonneg (by omega) (by omega)
  have hed : (i - 1).fdiv 2 = (i - 1) / 2 := Int.fdiv_eq_ediv _ (by omega)
  have hlt : ((i - 1).fdiv 2).toNat < g.paths.length := by
    rw [hed]
    omega
  rw [if_pos hge, List.get?_eq_getElem?, List.getElem?_eq_getElem hlt,
    List.getD_eq_getElem g.paths [] hlt]
  rfl

/-- C8: materializing a node order validates it first: on every order that
does not select the forward-or-reverse node of each physical path exactly
once it fails (the `Counter` difference the source prints is nonempty), and
on every valid order it succeeds, returning the paths with the orientation
each selected node encodes. -/
theorem get_route_from_solution_validates (g : PathGraph) (sol : List ℤ) :
    (¬ selects_each_path_once g.paths.length sol →
        g.get_route_from_solution sol = none) ∧
      (selects_each_path_once g.paths.length sol →
        g.get_route_from_solution sol =
          some (sol.map fun i =>
            if (i - 1).emod 2 = 1 then
              reverse_path (g.paths.getD ((i - 1).fdiv 2).toNat [])
            else g.paths.getD ((i - 1).fdiv 2).toNat [])) := by
  constructor
  · intro hinv
    unfold PathGraph.get_route_from_solution
    rw [if_neg fun hc => hinv ((check_valid_iff g sol).mp hc)]
  · intro hval
    unfold PathGraph.get_route_from_solution
    rw [if_pos ((check_valid_iff g sol).mpr hval)]
    apply mapM_option_eq_some
    intro i hi
    obtain ⟨hge, hle⟩ := hval.2 i hi
    exact get_path_in_range g hge hle

theorem get_route_from_solution_validates_witness :
    (PathGraph.mk [[(0, 0), (1, 1)], [(2, 2), (3, 3)]]
        o0).get_route_from_solution [1, 4] =
      some ([1, 4].map fun i : ℤ =>
        if (i - 1).emod 2 = 1 then
          reverse_path (([[(0, 0), (1, 1)], [(2, 2), (3, 3)]] :
            List PPath).getD ((i - 1).fdiv 2).toNat [])
        else ([[(0, 0), (1, 1)], [(2, 2), (3, 3)]] :
          List PPath).getD ((i - 1).fdiv 2).toNat []) :=
  (get_route_from_solution_validates
    (PathGraph.mk [[(0, 0), (1, 1)], [(2, 2), (3, 3)]] o0) [1, 4]).2
    (by constructor
        · decide
        · decide)

theorem sqDist_nonneg (p q : Pt) : 0 ≤ sqDist p q := by
  unfold sqDist
  have h1 := mul_self_nonneg (p.1 - q.1)
  have h2 := mul_self_nonneg (p.2 - q.2)
  linarith

theorem sqDist_eq_zero_iff (p q : Pt) : sqDist p q = 0 ↔ p = q := by
  unfold sqDist
  constructor
  · intro h
    have h1 := mul_self_nonneg (p.1 - q.1)
    have h2 := mul_self_nonneg (p.2 - q.2)
    have e1 : p.1 = q.1 := by
      have := mul_self_eq_zero.mp (show (p.1 - q.1) * (p.1 - q.1) = 0 by linarith)
      linarith
    have e2 : p.2 = q.2 := by
      have := mul_self_eq_zero.mp (show (p.2 - q.2) * (p.2 - q.2) = 0 by linarith)
      linarith
    exact Prod.ext e1 e2
  · intro h
    rw [h]
    ring

theorem rdist_self (a : Pt) : rdist a a = 0 := by
  unfold rdist
  rw [(sqDist_eq_zero_iff a a).mpr rfl]
  simp

theorem rdist_pos_iff (p q : Pt) : 0 < rdist p q ↔ p ≠ q := by
  unfold rdist
  rw [Real.sqrt_pos]
  constructor
  · intro h hpq
    subst hpq
    rw [(sqDist_eq_zero_iff p p).mpr rfl] at h
    simp at h
  · intro h
    have h0 : sqDist p q ≠ 0 := fun hc => h ((sqDist_eq_zero_iff p q).mp hc)
    have := lt_of_le_of_ne (sqDist_nonneg p q) (Ne.symm h0)
    exact_mod_cast this

/-- The filter `shapely.length(line) > 0` is decided exactly: the Boolean
`pos_length` agrees with positivity of the real polyline length. -/
theorem pos_length_iff (p : PPath) : pos_length p = true ↔ 0 < path_length p := by
  unfold pos_length path_length
  rw [List.any_eq_true]
  constructor
  · intro hex
    obtain ⟨s, hs, hne⟩ := hex
    have hpos : 0 < rdist s.1 s.2 := (rdist_pos_iff _ _).mpr (by simpa using hne)
    have hmem : rdist s.1 s.2 ∈ (seg_pairs p).map fun s => rdist s.1 s.2 :=
      List.mem_map_of_mem _ hs
    have hle := List.single_le_sum
      (fun x hx => by
        obtain ⟨t, _, rfl⟩ := List.mem_map.mp hx
        exact Real.sqrt_nonneg _) _ hmem
    linarith
  · intro hpos
    by_contra hnone
    push_neg at hnone
    have hz : ((seg_pairs p).map fun s => rdist s.1 s.2).sum = 0 := by
      apply List.sum_eq_zero
      intro x hx
      obtain ⟨s, hs, rfl⟩ := List.mem_map.mp hx
      have heq : s.1 = s.2 := by
        by_contra hne
        exact absurd (by simpa using hne) (by simpa using hnone s hs)
      rw [heq, rdist_self]
    linarith
